import Mathlib

/-!
Verification of the retrieval pipeline of the RAG_Techniques notebooks
(`simple_rag.ipynb`, `simple_csv_rag.ipynb`): fragmenter (text splitting),
text normalization, vector index (construction, insertion, k-nearest-neighbor
query under squared L2 distance), batched ingestion, and retriever defaults.

The notebooks delegate the splitting and indexing algorithms to library calls
(`RecursiveCharacterTextSplitter`, `faiss.IndexFlatL2`, `FAISS`,
`as_retriever`) and to the repository helper `replace_t_with_space`; those
bodies are not part of the two notebook files, so they are modelled here from
the specification's algorithm descriptions, with the notebook code fixing the
concrete parameters (metric L2, probe query " ", retriever k values, the
split-then-clean order of `encode_pdf`).
-/

/-- One unit emitted by document parsing (one CSV row / one PDF page):
text plus source metadata. -/
structure RawSegment where
  text : List Char
  meta : List Char
deriving DecidableEq, Repr

/-- A bounded-size chunk of source text: text, inherited metadata, and the
offset of the chunk within its segment. -/
structure Fragment where
  text : List Char
  meta : List Char
  offset : Nat
deriving DecidableEq, Repr

/-- Configuration error of the fragmenter (`chunk_overlap >= chunk_size` or
`chunk_size = 0`). -/
inductive SplitError where
  | InvalidConfiguration
deriving DecidableEq, Repr

/-- Modelled from the spec: the sliding-window split of one segment's text
performed by `RecursiveCharacterTextSplitter` (library code, not in the
notebooks). A window of length `cs` is emitted at the current position; while
the window did not reach the end of the text the position advances by
`cs - ov`; the final window is truncated to the remaining text, never
padded. -/
def splitSegment (cs ov : Nat) (t : List Char) : List (List Char) :=
  if h : t.length ≤ cs ∨ cs ≤ ov then [t]
  else t.take cs :: splitSegment cs ov (t.drop (cs - ov))
termination_by t.length
decreasing_by
  push_neg at h
  simp only [List.length_drop]
  omega

/-- Modelled from the spec: `split` processes each RawSegment independently
with the sliding window, inheriting `meta` verbatim and recording each
fragment's offset within its segment; `chunk_size = 0` or
`chunk_overlap >= chunk_size` fails with `InvalidConfiguration`. -/
def split (cs ov : Nat) (segs : List RawSegment) : Except SplitError (List Fragment) :=
  if 0 < cs ∧ ov < cs then
    .ok (segs.flatMap fun s =>
      (splitSegment cs ov s.text).enum.map fun p =>
        { text := p.2, meta := s.meta, offset := p.1 * (cs - ov) })
  else .error .InvalidConfiguration

/-- Modelled from the spec: the normalization step of the repository helper
`replace_t_with_space` (not under the notebook sources): each stray tab
character is collapsed to a single space. -/
def normChar (c : Char) : Char :=
  if c = '\t' then ' ' else c

/-- Normalization of a whole text, character by character. -/
def replace_t_with_space (t : List Char) : List Char :=
  t.map normChar

/-- Undo the chunk overlap: keep the first fragment whole and drop the first
`ov` characters of every later fragment, then concatenate. -/
def mergeFragments (ov : Nat) : List (List Char) → List Char
  | [] => []
  | f :: rest => f ++ rest.flatMap fun g => g.drop ov

/-- `splitSegment` never returns the empty list. -/
theorem splitSegment_ne_nil (cs ov : Nat) (t : List Char) :
    splitSegment cs ov t ≠ [] := by
  rw [splitSegment]
  split
  · simp
  · simp

/-- The head of `splitSegment cs ov t` is always `t.take cs`. -/
theorem splitSegment_head (cs ov : Nat) (t : List Char) (h : ov < cs) :
    (splitSegment cs ov t).head? = some (t.take cs) := by
  rw [splitSegment]
  split
  · rename_i hc
    rcases hc with hc | hc
    · simp [List.take_of_length_le hc]
    · omega
  · simp

/-- Window characterization: the `i`-th fragment of `splitSegment cs ov t` is
the window of length `cs` starting at offset `i * (cs - ov)`, truncated to
the text. -/
theorem splitSegment_getElem (cs ov : Nat) (hov : ov < cs) (t : List Char) :
    ∀ i, i < (splitSegment cs ov t).length →
      (splitSegment cs ov t)[i]? = some ((t.drop (i * (cs - ov))).take cs) := by
  induction t using splitSegment.induct cs ov with
  | case1 t hc =>
    intro i h
    rw [splitSegment] at h ⊢
    rw [dif_pos hc] at h ⊢
    rcases hc with hc | hc
    · simp only [List.length_singleton] at h
      interval_cases i
      simp [List.take_of_length_le hc]
    · omega
  | case2 t hc ih =>
    intro i h
    rw [splitSegment] at h ⊢
    rw [dif_neg hc] at h ⊢
    match i with
    | 0 => simp
    | Nat.succ j =>
      simp only [List.length_cons, Nat.succ_lt_succ_iff] at h
      simp only [List.getElem?_cons_succ]
      rw [ih j h]
      rw [List.drop_drop]
      congr 3
      simp only [Nat.succ_eq_add_one]
      ring

/-- Consecutive fragments: every non-final fragment has length exactly
`cs`, its last `cs - (cs - ov) = ov` characters equal the first `ov`
characters of the next fragment, and that shared block has length exactly
`ov`. -/
theorem splitSegment_consecutive (cs ov : Nat) (hov : ov < cs) (t : List Char) :
    ∀ i, i + 1 < (splitSegment cs ov t).length →
      ∃ f g, (splitSegment cs ov t)[i]? = some f ∧
        (splitSegment cs ov t)[i+1]? = some g ∧
        f.length = cs ∧ f.drop (cs - ov) = g.take ov ∧ (g.take ov).length = ov := by
  induction t using splitSegment.induct cs ov with
  | case1 t hc =>
    intro i h
    rw [splitSegment, dif_pos hc] at h
    simp at h
  | case2 t hc ih =>
    push_neg at hc
    intro i h
    rw [splitSegment, dif_neg (by omega)] at h ⊢
    match i with
    | 0 =>
      refine ⟨t.take cs, (t.drop (cs - ov)).take cs, by simp, ?_, ?_, ?_, ?_⟩
      · simp only [List.getElem?_cons_succ]
        have hh := splitSegment_head cs ov (t.drop (cs - ov)) hov
        cases hsp : splitSegment cs ov (t.drop (cs - ov)) with
        | nil => exact absurd hsp (splitSegment_ne_nil cs ov _)
        | cons a l =>
          rw [hsp] at hh
          simp only [List.head?_cons, Option.some.injEq] at hh
          simp [hh]
      · simp only [List.length_take]
        omega
      · rw [List.drop_take, List.take_take]
        congr 1
        omega
      · simp only [List.take_take, List.length_take, List.length_drop]
        omega
    | Nat.succ j =>
      simp only [List.length_cons, Nat.succ_lt_succ_iff] at h
      obtain ⟨f, g, h1, h2, h3, h4, h5⟩ := ih j h
      exact ⟨f, g, by simpa using h1, by simpa using h2, h3, h4, h5⟩

/-- C2 claim: split processes each segment independently by a sliding window
of length `chunk_size` advancing `chunk_size - chunk_overlap` per step,
truncating (never padding) the final window, so consecutive fragments from
one segment share exactly `chunk_overlap` characters at each boundary,
exactly once per boundary. -/
theorem split_sliding_window_overlap (cs ov : Nat) (hcs : 0 < cs) (hov : ov < cs)
    (t : List Char) :
    (∀ i, i < (splitSegment cs ov t).length →
      (splitSegment cs ov t)[i]? = some ((t.drop (i * (cs - ov))).take cs)) ∧
    (∀ i, i + 1 < (splitSegment cs ov t).length →
      ∃ f g, (splitSegment cs ov t)[i]? = some f ∧
        (splitSegment cs ov t)[i+1]? = some g ∧
        f.length = cs ∧ f.drop (cs - ov) = g.take ov ∧ (g.take ov).length = ov) ∧
    (∀ xs ys : List RawSegment, ∃ a b, split cs ov xs = .ok a ∧
      split cs ov ys = .ok b ∧ split cs ov (xs ++ ys) = .ok (a ++ b)) := by
  refine ⟨splitSegment_getElem cs ov hov t, splitSegment_consecutive cs ov hov t, ?_⟩
  intro xs ys
  unfold split
  repeat rw [if_pos ⟨hcs, hov⟩]
  exact ⟨_, _, rfl, rfl, by rw [List.flatMap_append]⟩

/-- Witness for the C2 theorem at `chunk_size = 4`, `chunk_overlap = 2`,
segment text `"abcdefg"`. -/
theorem split_sliding_window_overlap_witness :
    0 < 4 ∧ 2 < 4 ∧
    ((∀ i, i < (splitSegment 4 2 "abcdefg".toList).length →
      (splitSegment 4 2 "abcdefg".toList)[i]? =
        some (("abcdefg".toList.drop (i * (4 - 2))).take 4)) ∧
    (∀ i, i + 1 < (splitSegment 4 2 "abcdefg".toList).length →
      ∃ f g, (splitSegment 4 2 "abcdefg".toList)[i]? = some f ∧
        (splitSegment 4 2 "abcdefg".toList)[i+1]? = some g ∧
        f.length = 4 ∧ f.drop (4 - 2) = g.take 2 ∧ (g.take 2).length = 2) ∧
    (∀ xs ys : List RawSegment, ∃ a b, split 4 2 xs = .ok a ∧
      split 4 2 ys = .ok b ∧ split 4 2 (xs ++ ys) = .ok (a ++ b))) :=
  ⟨by decide, by decide,
    split_sliding_window_overlap 4 2 (by decide) (by decide) "abcdefg".toList⟩

/-- Dropping the overlap from every fragment and concatenating gives the
text with the overlap dropped once at the front. -/
theorem splitSegment_flatMap_drop (cs ov : Nat) (hov : ov < cs) (t : List Char) :
    ((splitSegment cs ov t).flatMap fun f => f.drop ov) = t.drop ov := by
  induction t using splitSegment.induct cs ov with
  | case1 t hc =>
    rw [splitSegment, dif_pos hc]
    simp
  | case2 t hc ih =>
    push_neg at hc
    rw [splitSegment, dif_neg (by omega)]
    rw [List.flatMap_cons, ih]
    rw [List.drop_take, List.drop_drop]
    have h1 : cs - ov + ov = cs := by omega
    rw [h1]
    have h2 : t.drop cs = (t.drop ov).drop (cs - ov) := by
      rw [List.drop_drop]
      congr 1
      omega
    rw [h2, List.take_append_drop]

/-- Removing the overlap once at each boundary and concatenating
reconstructs the segment's text. -/
theorem mergeFragments_splitSegment (cs ov : Nat) (hov : ov < cs) (t : List Char) :
    mergeFragments ov (splitSegment cs ov t) = t := by
  rw [splitSegment]
  split
  · rw [mergeFragments]
    simp
  · rename_i hc
    push_neg at hc
    rw [mergeFragments, splitSegment_flatMap_drop cs ov hov]
    rw [List.drop_drop]
    have h1 : cs - ov + ov = cs := by omega
    rw [h1, List.take_append_drop]

/-- Normalizing each piece commutes with dropping overlaps and
concatenating. -/
theorem flatMap_drop_map_norm (ov : Nat) : ∀ L : List (List Char),
    ((L.map (List.map normChar)).flatMap fun g => g.drop ov) =
      List.map normChar (L.flatMap fun g => g.drop ov)
  | [] => rfl
  | g :: gs => by
    rw [List.map_cons, List.flatMap_cons, List.flatMap_cons, List.map_append,
      flatMap_drop_map_norm ov gs, List.map_drop]

/-- Normalization maps through `mergeFragments`. -/
theorem mergeFragments_map_norm (ov : Nat) (L : List (List Char)) :
    mergeFragments ov (L.map replace_t_with_space) =
      replace_t_with_space (mergeFragments ov L) := by
  have he : replace_t_with_space = List.map normChar := rfl
  cases L with
  | nil => rfl
  | cons f rest =>
    rw [he]
    simp only [List.map_cons, mergeFragments, List.map_append]
    rw [flatMap_drop_map_norm]

/-- C3 claim: for every `chunk_size > 0`, `0 ≤ chunk_overlap < chunk_size`
and every segment, concatenating the consecutive normalized fragments
produced from that segment, after removing the `chunk_overlap`-length
overlap once at each boundary, reconstructs the segment's original
normalized text exactly. -/
theorem merge_reconstructs_normalized (cs ov : Nat) (hcs : 0 < cs) (hov : ov < cs)
    (t : List Char) :
    mergeFragments ov ((splitSegment cs ov t).map replace_t_with_space) =
      replace_t_with_space t := by
  rw [mergeFragments_map_norm, mergeFragments_splitSegment cs ov hov]

/-- Witness for the C3 theorem at `chunk_size = 4`, `chunk_overlap = 2`,
segment text `"ab\tdefg"`. -/
theorem merge_reconstructs_normalized_witness :
    0 < 4 ∧ 2 < 4 ∧
    mergeFragments 2 ((splitSegment 4 2 "ab\tdefg".toList).map replace_t_with_space) =
      replace_t_with_space "ab\tdefg".toList :=
  ⟨by decide, by decide,
    merge_reconstructs_normalized 4 2 (by decide) (by decide) "ab\tdefg".toList⟩


/-- Normalization of a whole segment (text normalized, metadata kept). -/
def normalizeSegment (s : RawSegment) : RawSegment :=
  { text := replace_t_with_space s.text, meta := s.meta }

/-- Normalization of a fragment (text normalized, metadata and offset kept). -/
def normalizeFragment (f : Fragment) : Fragment :=
  { text := replace_t_with_space f.text, meta := f.meta, offset := f.offset }

/-- Splitting the normalized text of one segment equals normalizing each
fragment of the split of the raw text. -/
theorem splitSegment_norm (cs ov : Nat) (t : List Char) :
    splitSegment cs ov (replace_t_with_space t) =
      (splitSegment cs ov t).map replace_t_with_space := by
  have hlen : ∀ u : List Char, (replace_t_with_space u).length = u.length := by
    intro u
    simp [replace_t_with_space]
  induction t using splitSegment.induct cs ov with
  | case1 t hc =>
    conv_rhs => rw [splitSegment, dif_pos hc]
    conv_lhs =>
      rw [splitSegment,
        dif_pos (show (replace_t_with_space t).length ≤ cs ∨ cs ≤ ov by
          rw [hlen]; exact hc)]
    rfl
  | case2 t hc ih =>
    conv_rhs => rw [splitSegment, dif_neg hc]
    conv_lhs =>
      rw [splitSegment,
        dif_neg (show ¬((replace_t_with_space t).length ≤ cs ∨ cs ≤ ov) by
          rw [hlen]; exact hc)]
    rw [List.map_cons]
    congr 1
    · simp [replace_t_with_space, List.map_take]
    · rw [← ih]
      congr 1
      simp [replace_t_with_space, List.map_drop]

/-- C4 claim: normalization is computed uniformly, so fragment boundaries are
always those of the normalized text: splitting the normalized text equals
normalizing each fragment of the split of the raw text, both for a single
segment's text and for the whole `split` run (metadata and offsets
unchanged). -/
theorem split_normalization_commutes (cs ov : Nat) (t : List Char)
    (segs : List RawSegment) :
    splitSegment cs ov (replace_t_with_space t) =
      (splitSegment cs ov t).map replace_t_with_space ∧
    split cs ov (segs.map normalizeSegment) =
      (split cs ov segs).map (List.map normalizeFragment) := by
  refine ⟨splitSegment_norm cs ov t, ?_⟩
  unfold split
  by_cases hcf : 0 < cs ∧ ov < cs
  · rw [if_pos hcf, if_pos hcf]
    simp only [Except.map]
    congr 1
    rw [List.flatMap_map, List.map_flatMap]
    congr 1
    funext s
    rw [List.map_map]
    show (splitSegment cs ov (replace_t_with_space s.text)).enum.map _ = _
    rw [splitSegment_norm, List.enum_map, List.map_map]
    rfl
  · rw [if_neg hcf, if_neg hcf]
    rfl

/-- C9 claim: a non-empty segment whose text is shorter than `chunk_size`
yields exactly one Fragment whose text is the whole input segment. -/
theorem split_short_segment (cs ov : Nat) (hcs : 0 < cs) (hov : ov < cs)
    (s : RawSegment) (hne : s.text ≠ []) (hshort : s.text.length < cs) :
    split cs ov [s] = .ok [{ text := s.text, meta := s.meta, offset := 0 }] := by
  rw [split, if_pos ⟨hcs, hov⟩]
  rw [List.flatMap_cons, List.flatMap_nil, List.append_nil]
  rw [splitSegment, dif_pos (Or.inl (Nat.le_of_lt hshort))]
  simp [List.enum]

/-- Witness for the C9 theorem: `chunk_size = 10`, `chunk_overlap = 3`,
segment text `"abc"`. -/
theorem split_short_segment_witness :
    0 < 10 ∧ 3 < 10 ∧ ("abc".toList : List Char) ≠ [] ∧ "abc".toList.length < 10 ∧
    split 10 3 [{ text := "abc".toList, meta := "m".toList }] =
      .ok [{ text := "abc".toList, meta := "m".toList, offset := 0 }] :=
  ⟨by decide, by decide, by decide, by decide,
    split_short_segment 10 3 (by decide) (by decide)
      { text := "abc".toList, meta := "m".toList } (by decide) (by decide)⟩

/-- One stored entry of the vector index: an embedding plus the fragment
payload it stands for. -/
structure VectorIndexEntry where
  embedding : List Int
  payload : List Char
deriving DecidableEq, Repr

/-- The vector index: the fixed dimension `D` and the append-only entry
list; the insertion index of an entry is its id. -/
structure VectorIndex where
  dim : Nat
  entries : List VectorIndexEntry
deriving DecidableEq, Repr

/-- Typed failures of index operations. -/
inductive IndexError where
  | DimensionMismatch
deriving DecidableEq, Repr

/-- Squared Euclidean distance, the L2 metric of `faiss.IndexFlatL2`
(monotonic with true Euclidean distance, no square root). -/
def sqDistL2 (u v : List Int) : Int :=
  (List.zipWith (fun a b => (a - b) * (a - b)) u v).sum

/-- Modelled from the spec: index construction as in the notebook line
`faiss.IndexFlatL2(len(embeddings.embed_query(" ")))` — the dimension is
fixed once by probing the embedder with the placeholder query `" "`, and the
index starts empty. -/
def construct (embedOne : List Char → List Int) : VectorIndex :=
  { dim := (embedOne [' ']).length, entries := [] }

/-- Modelled from the spec: `insert` appends the entries, failing with
`DimensionMismatch` (committing nothing) when any embedding's length differs
from the index dimension. -/
def VectorIndex.insert (idx : VectorIndex) (es : List VectorIndexEntry) :
    Except IndexError VectorIndex :=
  if ∀ e ∈ es, e.embedding.length = idx.dim then
    .ok { dim := idx.dim, entries := idx.entries ++ es }
  else .error .DimensionMismatch

/-- Ranking order on scored entries `(insertion id, entry, distance)`:
by distance, ties broken by insertion id. -/
def rankLE (x y : Nat × VectorIndexEntry × Int) : Prop :=
  x.2.2 < y.2.2 ∨ (x.2.2 = y.2.2 ∧ x.1 ≤ y.1)

instance : DecidableRel rankLE := fun x y => by
  unfold rankLE
  infer_instance

instance : IsTotal (Nat × VectorIndexEntry × Int) rankLE := by
  constructor
  intro a b
  unfold rankLE
  omega

instance : IsTrans (Nat × VectorIndexEntry × Int) rankLE := by
  constructor
  intro a b c
  unfold rankLE
  omega

/-- All entries scored against a query vector, keeping insertion ids. -/
def scored (idx : VectorIndex) (v : List Int) : List (Nat × VectorIndexEntry × Int) :=
  idx.entries.enum.map fun p => (p.1, p.2, sqDistL2 v p.2.embedding)

/-- Modelled from the spec: brute-force k-nearest-neighbor query. Fails with
`DimensionMismatch` when the query vector's length differs from the index
dimension; otherwise scores every stored vector, sorts ascending by distance
with ties broken by insertion order, and returns the first `k`. On an index
with no entries it returns the empty result (the documented `EmptyIndex`
choice of this design). -/
def query (idx : VectorIndex) (v : List Int) (k : Nat) :
    Except IndexError (List (Nat × VectorIndexEntry × Int)) :=
  if v.length = idx.dim then
    .ok ((List.insertionSort rankLE (scored idx v)).take k)
  else .error .DimensionMismatch

/-- Two pairwise facts on one list combine pointwise. -/
theorem pairwise_and_of {α : Type} {R S : α → α → Prop} {l : List α}
    (hR : l.Pairwise R) (hS : l.Pairwise S) :
    l.Pairwise fun a b => R a b ∧ S a b := by
  induction l with
  | nil => exact List.Pairwise.nil
  | cons a l ih =>
    rw [List.pairwise_cons] at hR hS ⊢
    exact ⟨fun b hb => ⟨hR.1 b hb, hS.1 b hb⟩, ih hR.2 hS.2⟩

/-- The scored list has one element per stored entry. -/
theorem scored_length (idx : VectorIndex) (v : List Int) :
    (scored idx v).length = idx.entries.length := by
  simp [scored]

/-- Membership in the scored list characterizes a genuine entry at the
recorded insertion id with its true distance to the query vector. -/
theorem mem_scored (idx : VectorIndex) (v : List Int) (x : Nat × VectorIndexEntry × Int) :
    x ∈ scored idx v ↔
      idx.entries[x.1]? = some x.2.1 ∧ x.2.2 = sqDistL2 v x.2.1.embedding := by
  constructor
  · intro hx
    rw [scored, List.mem_map] at hx
    obtain ⟨p, hp, hpx⟩ := hx
    rw [List.mem_enum_iff_getElem?] at hp
    rw [← hpx]
    exact ⟨hp, rfl⟩
  · intro ⟨h1, h2⟩
    rw [scored, List.mem_map]
    refine ⟨(x.1, x.2.1), ?_, ?_⟩
    · rw [List.mem_enum_iff_getElem?]
      exact h1
    · obtain ⟨i, e, d⟩ := x
      simp only at h1 h2 ⊢
      rw [← h2]
  
/-- The insertion ids of the scored list are pairwise distinct. -/
theorem scored_nodup_fst (idx : VectorIndex) (v : List Int) :
    ((scored idx v).map Prod.fst).Nodup := by
  rw [scored, List.map_map]
  have hf : (Prod.fst ∘ fun p : Nat × VectorIndexEntry =>
      (p.1, p.2, sqDistL2 v p.2.embedding)) = Prod.fst := rfl
  rw [hf]
  exact List.nodup_enum_map_fst _

/-- C1 claim: on an L2 index, `query(v, k)` with `k > 0` and a
correct-dimension vector succeeds and returns exactly `min k N` results,
ordered ascending by squared Euclidean distance to `v`, ties broken by
insertion order (earlier-inserted id wins), every result being a genuine
stored entry at its recorded insertion id with its true distance. -/
theorem query_ranked_results (idx : VectorIndex) (v : List Int) (k : Nat)
    (hk : 0 < k) (hv : v.length = idx.dim) :
    ∃ r, query idx v k = .ok r ∧
      r.length = min k idx.entries.length ∧
      List.Pairwise (fun a b : Nat × VectorIndexEntry × Int =>
        a.2.2 < b.2.2 ∨ (a.2.2 = b.2.2 ∧ a.1 < b.1)) r ∧
      ∀ x ∈ r, idx.entries[x.1]? = some x.2.1 ∧
        x.2.2 = sqDistL2 v x.2.1.embedding := by
  have hq : query idx v k =
      .ok ((List.insertionSort rankLE (scored idx v)).take k) := by
    rw [query, if_pos hv]
  refine ⟨_, hq, ?_, ?_, ?_⟩
  · rw [List.length_take, List.length_insertionSort, scored_length]
  · have hsorted : List.Pairwise rankLE
        (List.insertionSort rankLE (scored idx v)) :=
      List.sorted_insertionSort rankLE (scored idx v)
    have htake : List.Pairwise rankLE
        ((List.insertionSort rankLE (scored idx v)).take k) :=
      List.Pairwise.sublist (List.take_sublist k _) hsorted
    have hnd : (((List.insertionSort rankLE (scored idx v)).take k).map
        Prod.fst).Nodup := by
      apply List.Nodup.sublist
        (List.Sublist.map Prod.fst (List.take_sublist k _))
      exact (((List.perm_insertionSort rankLE (scored idx v)).map
        Prod.fst).nodup_iff).mpr (scored_nodup_fst idx v)
    have hne : List.Pairwise
        (fun a b : Nat × VectorIndexEntry × Int => a.1 ≠ b.1)
        ((List.insertionSort rankLE (scored idx v)).take k) :=
      (List.pairwise_map).mp hnd
    refine List.Pairwise.imp ?_ (pairwise_and_of htake hne)
    intro a b hab
    obtain ⟨hr, hne2⟩ := hab
    rcases hr with hlt | ⟨heq, hle⟩
    · exact Or.inl hlt
    · exact Or.inr ⟨heq, lt_of_le_of_ne hle hne2⟩
  · intro x hx
    have hx2 : x ∈ List.insertionSort rankLE (scored idx v) :=
      List.mem_of_mem_take hx
    rw [List.mem_insertionSort] at hx2
    exact (mem_scored idx v x).mp hx2

/-- Witness for the C1 theorem: a 1-dimensional index with three entries,
queried with `[0]` and `k = 2`. -/
theorem query_ranked_results_witness :
    0 < 2 ∧ ([(0 : Int)].length = (VectorIndex.mk 1
      [⟨[(0 : Int)], "a".toList⟩, ⟨[(5 : Int)], "b".toList⟩,
        ⟨[(0 : Int)], "c".toList⟩]).dim) ∧
    (∃ r, query (VectorIndex.mk 1
        [⟨[(0 : Int)], "a".toList⟩, ⟨[(5 : Int)], "b".toList⟩,
          ⟨[(0 : Int)], "c".toList⟩]) [(0 : Int)] 2 = .ok r ∧
      r.length = min 2 (VectorIndex.mk 1
        [⟨[(0 : Int)], "a".toList⟩, ⟨[(5 : Int)], "b".toList⟩,
          ⟨[(0 : Int)], "c".toList⟩]).entries.length ∧
      List.Pairwise (fun a b : Nat × VectorIndexEntry × Int =>
        a.2.2 < b.2.2 ∨ (a.2.2 = b.2.2 ∧ a.1 < b.1)) r ∧
      ∀ x ∈ r, (VectorIndex.mk 1
        [⟨[(0 : Int)], "a".toList⟩, ⟨[(5 : Int)], "b".toList⟩,
          ⟨[(0 : Int)], "c".toList⟩]).entries[x.1]? = some x.2.1 ∧
        x.2.2 = sqDistL2 [(0 : Int)] x.2.1.embedding) :=
  ⟨by decide, by decide,
    query_ranked_results (VectorIndex.mk 1
      [⟨[(0 : Int)], "a".toList⟩, ⟨[(5 : Int)], "b".toList⟩,
        ⟨[(0 : Int)], "c".toList⟩]) [(0 : Int)] 2 (by decide) (by decide)⟩

/-- Squared L2 distance of a vector to itself is zero. -/
theorem sqDistL2_self (v : List Int) : sqDistL2 v v = 0 := by
  induction v with
  | nil => rfl
  | cons a u ih =>
    rw [sqDistL2, List.zipWith_cons_cons, List.sum_cons]
    rw [sqDistL2] at ih
    rw [ih]
    ring

/-- Squared L2 distance is never negative. -/
theorem sqDistL2_nonneg : ∀ u v : List Int, 0 ≤ sqDistL2 u v
  | [], v => by simp [sqDistL2]
  | a :: u, [] => by simp [sqDistL2]
  | a :: u, b :: v => by
    rw [sqDistL2, List.zipWith_cons_cons, List.sum_cons]
    have h1 := sqDistL2_nonneg u v
    rw [sqDistL2] at h1
    nlinarith [mul_self_nonneg (a - b)]

/-- Squared L2 distance between distinct same-length vectors is positive. -/
theorem sqDistL2_pos : ∀ u v : List Int, u.length = v.length → u ≠ v →
    0 < sqDistL2 u v
  | [], [], _, hne => absurd rfl hne
  | [], b :: v, hlen, _ => by simp at hlen
  | a :: u, [], hlen, _ => by simp at hlen
  | a :: u, b :: v, hlen, hne => by
    rw [sqDistL2, List.zipWith_cons_cons, List.sum_cons]
    by_cases hab : a = b
    · have hne2 : u ≠ v := by
        intro he
        exact hne (by rw [hab, he])
      have hpos : 0 < sqDistL2 u v :=
        sqDistL2_pos u v (by simpa using hlen) hne2
      rw [sqDistL2] at hpos
      nlinarith
    · have hsq : 0 < (a - b) * (a - b) := by
        have hz : a - b ≠ 0 := fun hz => hab (by linarith [sub_eq_zero.mp hz])
        exact mul_self_pos.mpr hz
      have hrest : 0 ≤ (List.zipWith (fun a b => (a - b) * (a - b)) u v).sum := by
        have := sqDistL2_nonneg u v
        rw [sqDistL2] at this
        exact this
      linarith

/-- Taking `k > 0` elements preserves the head. -/
theorem head_take {α : Type} (k : Nat) (hk : 0 < k) (l : List α) :
    (l.take k).head? = l.head? := by
  cases l with
  | nil => simp
  | cons a l =>
    cases k with
    | zero => omega
    | succ k => simp

/-- C7 claim: on an index of pairwise-distinct entries whose embeddings all
have the index dimension, querying with the embedding of the entry inserted
at position `i` returns that entry as the first result with distance 0. -/
theorem query_self_first (idx : VectorIndex) (i : Nat) (hi : i < idx.entries.length)
    (hdim : ∀ e ∈ idx.entries, e.embedding.length = idx.dim)
    (hdistinct : List.Pairwise
      (fun a b : VectorIndexEntry => a.embedding ≠ b.embedding) idx.entries)
    (k : Nat) (hk : 0 < k) :
    ∃ e r, idx.entries[i]? = some e ∧
      query idx e.embedding k = .ok r ∧ r.head? = some (i, e, 0) := by
  have he : idx.entries[i]? = some idx.entries[i] := List.getElem?_eq_getElem hi
  refine ⟨idx.entries[i],
    (List.insertionSort rankLE (scored idx idx.entries[i].embedding)).take k,
    he, ?_, ?_⟩
  · rw [query, if_pos (hdim _ (List.getElem_mem hi))]
  · have hy : ((i, idx.entries[i], (0 : Int)) :
        Nat × VectorIndexEntry × Int) ∈ scored idx idx.entries[i].embedding := by
      rw [mem_scored]
      exact ⟨he, (sqDistL2_self _).symm⟩
    have hys : ((i, idx.entries[i], (0 : Int)) :
        Nat × VectorIndexEntry × Int) ∈
          List.insertionSort rankLE (scored idx idx.entries[i].embedding) := by
      rw [List.mem_insertionSort]
      exact hy
    have hsorted := List.sorted_insertionSort rankLE
      (scored idx idx.entries[i].embedding)
    rw [head_take k hk]
    cases hs : List.insertionSort rankLE (scored idx idx.entries[i].embedding) with
    | nil =>
      rw [hs] at hys
      simp at hys
    | cons x tail =>
      rw [List.head?_cons, Option.some.injEq]
      rw [hs] at hys hsorted
      rcases List.mem_cons.mp hys with hyx | hyt
      · exact hyx.symm
      · have hxy : rankLE x (i, idx.entries[i], (0 : Int)) :=
          (List.pairwise_cons.mp hsorted).1 _ hyt
        have hxm : x ∈ scored idx idx.entries[i].embedding := by
          have : x ∈ List.insertionSort rankLE
              (scored idx idx.entries[i].embedding) := by
            rw [hs]
            exact List.mem_cons_self x tail
          rwa [List.mem_insertionSort] at this
        rw [mem_scored] at hxm
        obtain ⟨hx1, hx2⟩ := hxm
        obtain ⟨hxlt, hxeq⟩ := List.getElem?_eq_some_iff.mp hx1
        have hd0 : x.2.2 = 0 := by
          have hnn : 0 ≤ x.2.2 := by
            rw [hx2]
            exact sqDistL2_nonneg _ _
          rcases hxy with hlt | ⟨heq, _⟩
          · have h00 : ((i, idx.entries[i], (0 : Int)) :
                Nat × VectorIndexEntry × Int).2.2 = 0 := rfl
            rw [h00] at hlt
            omega
          · exact heq
        have hemb : x.2.1.embedding = idx.entries[i].embedding := by
          by_contra hne
          have hpos : 0 < sqDistL2 idx.entries[i].embedding x.2.1.embedding := by
            apply sqDistL2_pos
            · rw [hdim _ (List.getElem_mem hi),
                hdim _ (hxeq ▸ List.getElem_mem hxlt)]
            · exact fun hcontra => hne hcontra.symm
          rw [hx2] at hd0
          omega
        have hidx : x.1 = i := by
          by_contra hne
          have hpair := List.pairwise_iff_getElem.mp hdistinct
          rcases Nat.lt_or_ge x.1 i with hlt2 | hge
          · exact (hpair x.1 i hxlt hi hlt2) (by rw [hxeq, hemb])
          · have hlt3 : i < x.1 := by omega
            have heq2 : idx.entries[i].embedding = idx.entries[x.1].embedding := by
              rw [hxeq, hemb]
            exact (hpair i x.1 hi hxlt hlt3) heq2
        have hxe : x.2.1 = idx.entries[i] := by
          rw [← hxeq]
          congr 1
        obtain ⟨j, e2, d⟩ := x
        simp only at hd0 hxe hidx
        rw [hidx, hxe, hd0]

/-- Witness for the C7 theorem: a 1-dimensional index with two distinct
entries, querying with the second entry's own embedding, `k = 1`. -/
theorem query_self_first_witness :
    1 < (VectorIndex.mk 1 [⟨[(2 : Int)], "a".toList⟩,
      ⟨[(7 : Int)], "b".toList⟩]).entries.length ∧
    (∀ e ∈ (VectorIndex.mk 1 [⟨[(2 : Int)], "a".toList⟩,
      ⟨[(7 : Int)], "b".toList⟩]).entries, e.embedding.length = 1) ∧
    List.Pairwise (fun a b : VectorIndexEntry => a.embedding ≠ b.embedding)
      (VectorIndex.mk 1 [⟨[(2 : Int)], "a".toList⟩,
        ⟨[(7 : Int)], "b".toList⟩]).entries ∧
    0 < 1 ∧
    (∃ e r, (VectorIndex.mk 1 [⟨[(2 : Int)], "a".toList⟩,
        ⟨[(7 : Int)], "b".toList⟩]).entries[1]? = some e ∧
      query (VectorIndex.mk 1 [⟨[(2 : Int)], "a".toList⟩,
        ⟨[(7 : Int)], "b".toList⟩]) e.embedding 1 = .ok r ∧
      r.head? = some (1, e, 0)) :=
  ⟨by decide, by decide, by decide, by decide,
    query_self_first (VectorIndex.mk 1 [⟨[(2 : Int)], "a".toList⟩,
      ⟨[(7 : Int)], "b".toList⟩]) 1 (by decide) (by decide) (by decide)
      1 (by decide)⟩

/-- C6 claim: the index dimension is fixed at construction by probing the
embedder once with the placeholder query `" "`; an insert containing an
embedding of the wrong length fails with `DimensionMismatch` (nothing is
committed), and a query vector of the wrong length fails with
`DimensionMismatch` — no coercion ever takes place. -/
theorem dimension_mismatch_rejected (embedOne : List Char → List Int)
    (idx : VectorIndex) (es : List VectorIndexEntry) (e : VectorIndexEntry)
    (he : e ∈ es) (hbad : e.embedding.length ≠ idx.dim)
    (v : List Int) (hv : v.length ≠ idx.dim) (k : Nat) :
    (construct embedOne).dim = (embedOne [' ']).length ∧
    (construct embedOne).entries = [] ∧
    VectorIndex.insert idx es = .error .DimensionMismatch ∧
    query idx v k = .error .DimensionMismatch := by
  refine ⟨rfl, rfl, ?_, ?_⟩
  · rw [VectorIndex.insert, if_neg]
    intro hall
    exact hbad (hall e he)
  · rw [query, if_neg hv]

/-- Fixed-output embedder of dimension 3 (for the C6 witness). -/
def embedThree : List Char → List Int := fun _ => [0, 0, 0]

/-- Witness for the C6 theorem: a 3-dimensional index rejecting a
1-dimensional insert and a 2-dimensional query. -/
theorem dimension_mismatch_rejected_witness :
    (⟨[(1 : Int)], "x".toList⟩ : VectorIndexEntry) ∈
      [(⟨[(1 : Int)], "x".toList⟩ : VectorIndexEntry)] ∧
    ((⟨[(1 : Int)], "x".toList⟩ : VectorIndexEntry)).embedding.length ≠
      (VectorIndex.mk 3 []).dim ∧
    ([(1 : Int), 2] : List Int).length ≠ (VectorIndex.mk 3 []).dim ∧
    ((construct embedThree).dim = (embedThree [' ']).length ∧
     (construct embedThree).entries = [] ∧
     VectorIndex.insert (VectorIndex.mk 3 [])
         [(⟨[(1 : Int)], "x".toList⟩ : VectorIndexEntry)] =
       Except.error IndexError.DimensionMismatch ∧
     query (VectorIndex.mk 3 []) [(1 : Int), 2] 5 =
       .error .DimensionMismatch) :=
  ⟨by decide, by decide, by decide,
    dimension_mismatch_rejected embedThree (VectorIndex.mk 3 [])
      [⟨[(1 : Int)], "x".toList⟩] ⟨[(1 : Int)], "x".toList⟩
      (by decide) (by decide) [(1 : Int), 2] (by decide) 5⟩

/-- C8 claim: a query of the correct dimension with `k > 0` against a
freshly constructed, never-populated index deterministically returns the
empty result — the documented `EmptyIndex` behavior of this design — on
every such call, never a crash. -/
theorem query_fresh_index_empty (embedOne : List Char → List Int)
    (v : List Int) (hv : v.length = (construct embedOne).dim)
    (k : Nat) (hk : 0 < k) :
    query (construct embedOne) v k = .ok [] := by
  rw [query, if_pos hv]
  have h0 : scored (construct embedOne) v = [] := rfl
  rw [h0]
  simp [List.insertionSort]

/-- Fixed-output embedder of dimension 1 (for the C8 witness). -/
def embedOneDim : List Char → List Int := fun _ => [0]

/-- Witness for the C8 theorem: `query(v, 5)` on a freshly constructed
1-dimensional index returns the empty result. -/
theorem query_fresh_index_empty_witness :
    ([(9 : Int)] : List Int).length = (construct embedOneDim).dim ∧ 0 < 5 ∧
    query (construct embedOneDim) [(9 : Int)] 5 = .ok [] :=
  ⟨by decide, by decide,
    query_fresh_index_empty embedOneDim [(9 : Int)] (by decide) 5 (by decide)⟩

/-- Outcome of an ingestion run: the committed entries, how many fragments
were committed, how many were requested, and whether a batch failed. -/
structure IngestReport where
  index : List VectorIndexEntry
  completed : Nat
  requested : Nat
  failed : Bool
deriving DecidableEq, Repr

/-- Modelled from the spec: per-batch commit. Batches are embedded in order;
a successful batch is committed (texts zipped with their embeddings) before
the next batch starts; the first failing batch commits nothing and stops the
run. -/
def ingestBatches (embedBatch : List (List Char) → Option (List (List Int))) :
    List (List (List Char)) → List VectorIndexEntry × Nat × Bool
  | [] => ([], 0, false)
  | b :: rest =>
    match embedBatch b with
    | none => ([], 0, true)
    | some vs =>
      let r := ingestBatches embedBatch rest
      ((List.zipWith (fun t v => ⟨v, t⟩) b vs) ++ r.1, b.length + r.2.1, r.2.2)

/-- Modelled from the spec: `ingest` runs the batches and reports the count
of fragments successfully indexed versus the count requested. -/
def ingest (embedBatch : List (List Char) → Option (List (List Int)))
    (batches : List (List (List Char))) : IngestReport :=
  let r := ingestBatches embedBatch batches
  { index := r.1, completed := r.2.1, requested := batches.flatten.length,
    failed := r.2.2 }

/-- Zipping texts with equally many embeddings and projecting the payloads
gives back the texts. -/
theorem zipWith_payload (b : List (List Char)) (vs : List (List Int))
    (hlen : vs.length = b.length) :
    (List.zipWith (fun t v => (⟨v, t⟩ : VectorIndexEntry)) b vs).map
      (fun e => e.payload) = b := by
  induction b generalizing vs with
  | nil => simp
  | cons t b ih =>
    cases vs with
    | nil => simp at hlen
    | cons v vs =>
      rw [List.zipWith_cons_cons, List.map_cons]
      rw [ih vs (by simpa using hlen)]

/-- The committed entries, count, and failure flag after the first failing
batch: exactly the earlier successful batches are committed. -/
theorem ingestBatches_partial
    (embedBatch : List (List Char) → Option (List (List Int)))
    (post : List (List (List Char))) (bad : List (List Char))
    (hfail : embedBatch bad = none) :
    ∀ pre : List (List (List Char)),
    (∀ b ∈ pre, ∃ vs, embedBatch b = some vs ∧ vs.length = b.length) →
    (ingestBatches embedBatch (pre ++ bad :: post)).1.map (fun e => e.payload) =
      pre.flatten ∧
    (ingestBatches embedBatch (pre ++ bad :: post)).2.1 = pre.flatten.length ∧
    (ingestBatches embedBatch (pre ++ bad :: post)).2.2 = true
  | [], _ => by
    rw [List.nil_append, ingestBatches, hfail]
    exact ⟨rfl, rfl, rfl⟩
  | b :: pre, hok => by
    obtain ⟨vs, hvs, hlen⟩ := hok b (List.mem_cons_self b pre)
    have hok2 : ∀ c ∈ pre, ∃ vs, embedBatch c = some vs ∧ vs.length = c.length :=
      fun c hc => hok c (List.mem_cons_of_mem b hc)
    obtain ⟨ih1, ih2, ih3⟩ :=
      ingestBatches_partial embedBatch post bad hfail pre hok2
    simp only [List.cons_append, ingestBatches, hvs, List.append_eq]
    refine ⟨?_, ?_, ih3⟩
    · rw [List.map_append, zipWith_payload b vs hlen, ih1, List.flatten_cons]
    · rw [ih2, List.flatten_cons, List.length_append]

/-- C5 claim: if embedding fails on one batch of a multi-batch ingestion,
every fragment of each earlier (successful) batch stays committed, no
fragment of the failing or later batches is committed, and the report gives
the caller `completed` = fragments of the successful batches versus
`requested` = all fragments, alongside the failure flag. -/
theorem ingest_partial_commit
    (embedBatch : List (List Char) → Option (List (List Int)))
    (pre post : List (List (List Char))) (bad : List (List Char))
    (hok : ∀ b ∈ pre, ∃ vs, embedBatch b = some vs ∧ vs.length = b.length)
    (hfail : embedBatch bad = none) :
    (ingest embedBatch (pre ++ bad :: post)).index.map (fun e => e.payload) =
      pre.flatten ∧
    (ingest embedBatch (pre ++ bad :: post)).completed = pre.flatten.length ∧
    (ingest embedBatch (pre ++ bad :: post)).requested =
      (pre ++ bad :: post).flatten.length ∧
    (ingest embedBatch (pre ++ bad :: post)).failed = true := by
  obtain ⟨h1, h2, h3⟩ := ingestBatches_partial embedBatch post bad hfail pre hok
  exact ⟨h1, h2, rfl, h3⟩

/-- The failing batch of the C5 witness scenario (batch 2 of 3). -/
def badBatch : List (List Char) := ["d".toList, "e".toList, "f".toList]

/-- Embedder for the C5 witness: fails exactly on `badBatch`, embeds every
text of any other batch to `[0]`. -/
def embedFailBad : List (List Char) → Option (List (List Int)) :=
  fun b => if b = badBatch then none else some (b.map fun _ => [0])

/-- Witness for the C5 theorem: 9 fragments in 3 batches of 3, embedding
fails on batch 2 — the index keeps exactly batch 1 and the report says
`completed = 3`, `requested = 9`. -/
theorem ingest_partial_commit_witness :
    (∀ b ∈ [["a".toList, "b".toList, "c".toList]],
      ∃ vs, embedFailBad b = some vs ∧ vs.length = b.length) ∧
    embedFailBad badBatch = none ∧
    ((ingest embedFailBad ([["a".toList, "b".toList, "c".toList]] ++
        badBatch :: [["g".toList, "h".toList, "i".toList]])).index.map
          (fun e => e.payload) =
      ([["a".toList, "b".toList, "c".toList]] :
        List (List (List Char))).flatten ∧
    (ingest embedFailBad ([["a".toList, "b".toList, "c".toList]] ++
        badBatch :: [["g".toList, "h".toList, "i".toList]])).completed =
      ([["a".toList, "b".toList, "c".toList]] :
        List (List (List Char))).flatten.length ∧
    (ingest embedFailBad ([["a".toList, "b".toList, "c".toList]] ++
        badBatch :: [["g".toList, "h".toList, "i".toList]])).requested =
      (([["a".toList, "b".toList, "c".toList]] ++
        badBatch :: [["g".toList, "h".toList, "i".toList]]) :
        List (List (List Char))).flatten.length ∧
    (ingest embedFailBad ([["a".toList, "b".toList, "c".toList]] ++
        badBatch :: [["g".toList, "h".toList, "i".toList]])).failed = true) :=
  ⟨by
    intro b hb
    rw [List.mem_singleton] at hb
    subst hb
    exact ⟨[[0], [0], [0]], by decide, by decide⟩,
   by decide,
   ingest_partial_commit embedFailBad
     [["a".toList, "b".toList, "c".toList]]
     [["g".toList, "h".toList, "i".toList]] badBatch
     (by
       intro b hb
       rw [List.mem_singleton] at hb
       subst hb
       exact ⟨[[0], [0], [0]], by decide, by decide⟩)
     (by decide)⟩

/-- Modelled from the spec: the retrieval depth the library applies when
`as_retriever()` is called with no explicit `k` (the langchain default of 4
visible as four retrieved records in the CSV notebook output). -/
def defaultSearchK : Nat := 4

/-- A retriever: a reference to the index it queries plus its configured
retrieval depth. -/
structure Retriever where
  index : VectorIndex
  k : Nat
deriving DecidableEq, Repr

/-- Modelled from the spec: `as_retriever` wraps the index with the
configured `k` from `search_kwargs`, or the library default when absent. -/
def as_retriever (idx : VectorIndex) (searchK : Option Nat) : Retriever :=
  { index := idx, k := searchK.getD defaultSearchK }

/-- Modelled from the spec: `retrieve` embeds the question and queries the
index with the retriever's configured depth. -/
def retrieve (r : Retriever) (embedOne : List Char → List Int) (q : List Char) :
    Except IndexError (List (Nat × VectorIndexEntry × Int)) :=
  query r.index (embedOne q) r.k

/-- A successful query never returns more than `k` results. -/
theorem query_length_le (idx : VectorIndex) (v : List Int) (k : Nat)
    (r : List (Nat × VectorIndexEntry × Int)) (h : query idx v k = .ok r) :
    r.length ≤ k := by
  rw [query] at h
  by_cases hv : v.length = idx.dim
  · rw [if_pos hv, Except.ok.injEq] at h
    rw [← h]
    exact List.length_take_le k _
  · rw [if_neg hv] at h
    exact absurd h (by simp)

/-- C10 claim: the CSV pipeline builds its retriever without an explicit
`k`, so each question retrieves up to 4 fragments (the library default),
while the PDF pipeline builds its retriever with `k = 2`, so each question
retrieves at most 2 fragments. -/
theorem retriever_default_depths (idx : VectorIndex) :
    (as_retriever idx none).k = 4 ∧
    (as_retriever idx (some 2)).k = 2 ∧
    (∀ (embedOne : List Char → List Int) (q : List Char) r,
      retrieve (as_retriever idx none) embedOne q = .ok r → r.length ≤ 4) ∧
    (∀ (embedOne : List Char → List Int) (q : List Char) r,
      retrieve (as_retriever idx (some 2)) embedOne q = .ok r → r.length ≤ 2) := by
  refine ⟨rfl, rfl, ?_, ?_⟩
  · intro embedOne q r h
    exact query_length_le _ _ _ r h
  · intro embedOne q r h
    exact query_length_le _ _ _ r h

/-- Embedder for the C10 witness. -/
def embedQuestion : List Char → List Int := fun _ => [0]

/-- Witness for the C10 theorem: a 1-dimensional index with five entries;
the default retriever depth is 4 and the PDF retriever depth is 2, and the
length bounds hold for a concrete retrieval. -/
theorem retriever_default_depths_witness :
    ((as_retriever (VectorIndex.mk 1 [⟨[(1 : Int)], "a".toList⟩,
        ⟨[(2 : Int)], "b".toList⟩, ⟨[(3 : Int)], "c".toList⟩,
        ⟨[(4 : Int)], "d".toList⟩, ⟨[(5 : Int)], "e".toList⟩]) none).k = 4 ∧
    (as_retriever (VectorIndex.mk 1 [⟨[(1 : Int)], "a".toList⟩,
        ⟨[(2 : Int)], "b".toList⟩, ⟨[(3 : Int)], "c".toList⟩,
        ⟨[(4 : Int)], "d".toList⟩, ⟨[(5 : Int)], "e".toList⟩]) (some 2)).k = 2 ∧
    (∀ (embedOne : List Char → List Int) (q : List Char) r,
      retrieve (as_retriever (VectorIndex.mk 1 [⟨[(1 : Int)], "a".toList⟩,
        ⟨[(2 : Int)], "b".toList⟩, ⟨[(3 : Int)], "c".toList⟩,
        ⟨[(4 : Int)], "d".toList⟩, ⟨[(5 : Int)], "e".toList⟩]) none)
          embedOne q = .ok r → r.length ≤ 4) ∧
    (∀ (embedOne : List Char → List Int) (q : List Char) r,
      retrieve (as_retriever (VectorIndex.mk 1 [⟨[(1 : Int)], "a".toList⟩,
        ⟨[(2 : Int)], "b".toList⟩, ⟨[(3 : Int)], "c".toList⟩,
        ⟨[(4 : Int)], "d".toList⟩, ⟨[(5 : Int)], "e".toList⟩]) (some 2))
          embedOne q = .ok r → r.length ≤ 2)) :=
  retriever_default_depths (VectorIndex.mk 1 [⟨[(1 : Int)], "a".toList⟩,
    ⟨[(2 : Int)], "b".toList⟩, ⟨[(3 : Int)], "c".toList⟩,
    ⟨[(4 : Int)], "d".toList⟩, ⟨[(5 : Int)], "e".toList⟩])
